import Mathlib

/-!
Verification of the filetracker storage engine (a content-addressed,
reference-counted file store) against its natural-language specification.

The Rust sources are embedded shallowly:
- `src/util.rs` : hex codec (`bytes_to_hex`, `hex_to_byte_array`);
- `src/blobstorage.rs` : the reference-counted blob pool (`BlobStorage.write`,
  `BlobStorage.decref`), with the filesystem modelled as association lists
  from blob hash to content bytes and to refcount;
- `src/storage.rs` : the path-keyed overlay (`LocalStorage.get/head/put/delete`,
  `FileLister.next`, `LocalStorage.list`);
- `src/lockmap.rs` : lock usage is modelled as the sequence of lock events each
  operation performs (`LockEvent`), since the store operations themselves are
  embedded sequentially.

Machine integers are `Nat` with explicit reduction `% 2 ^ w`; SHA-256 (the
`sha2` crate) is implemented from FIPS 180-4 with fuel-based bitwise helpers so
everything reduces in the kernel.  The gzip encoder and decoder (the `flate2`
crate, external to this repository) are parameters of the `put` embedding.
-/

set_option maxRecDepth 1000000

namespace Filetracker

instance {ε α : Type} [DecidableEq ε] [DecidableEq α] : DecidableEq (Except ε α) := fun a b =>
  match a, b with
  | .error x, .error y =>
    if h : x = y then .isTrue (by rw [h]) else .isFalse (by simp [h])
  | .error _, .ok _ => .isFalse (by simp)
  | .ok _, .error _ => .isFalse (by simp)
  | .ok x, .ok y =>
    if h : x = y then .isTrue (by rw [h]) else .isFalse (by simp [h])

/-! ## Association lists standing for directories of files -/

def lookupA {κ α : Type} [DecidableEq κ] : List (κ × α) → κ → Option α
  | [], _ => none
  | (k', v) :: rest, k => if k' = k then some v else lookupA rest k

def insertA {κ α : Type} [DecidableEq κ] : List (κ × α) → κ → α → List (κ × α)
  | [], k, v => [(k, v)]
  | (k', v') :: rest, k, v =>
    if k' = k then (k, v) :: rest else (k', v') :: insertA rest k v

def eraseA {κ α : Type} [DecidableEq κ] : List (κ × α) → κ → List (κ × α)
  | [], _ => []
  | (k', v') :: rest, k => if k' = k then rest else (k', v') :: eraseA rest k

/-- No key occurs twice in the association list (a real directory holds one
entry per name; the engine's maps come from such directories). -/
def nodupKeysB {κ α : Type} [DecidableEq κ] : List (κ × α) → Bool
  | [] => true
  | (k, _) :: rest => (lookupA rest k).isNone && nodupKeysB rest

theorem lookupA_insertA_self {κ α : Type} [DecidableEq κ]
    (l : List (κ × α)) (k : κ) (v : α) : lookupA (insertA l k v) k = some v := by
  induction l with
  | nil => simp [insertA, lookupA]
  | cons hd tl ih =>
    obtain ⟨k', v'⟩ := hd
    by_cases h : k' = k <;> simp [insertA, lookupA, h, ih]

theorem lookupA_mem {κ α : Type} [DecidableEq κ]
    {l : List (κ × α)} {k : κ} {v : α} (h : lookupA l k = some v) : (k, v) ∈ l := by
  induction l with
  | nil => simp [lookupA] at h
  | cons hd tl ih =>
    obtain ⟨k', v'⟩ := hd
    by_cases hk : k' = k
    · subst hk
      simp [lookupA] at h
      simp [h]
    · simp [lookupA, hk] at h
      exact List.mem_cons_of_mem _ (ih h)

/-! ## Bitwise arithmetic on 32-bit words, fuel-based so the kernel reduces it -/

def w32 (x : Nat) : Nat := x % 4294967296

def bitStep (f : Nat → Nat → Nat) : Nat → Nat → Nat → Nat
  | 0, _, _ => 0
  | k + 1, a, b => f (a % 2) (b % 2) + 2 * bitStep f k (a / 2) (b / 2)

def land32 (a b : Nat) : Nat := bitStep (fun x y => x * y) 32 a b

def lor32 (a b : Nat) : Nat := bitStep (fun x y => x + y - x * y) 32 a b

def lxor32 (a b : Nat) : Nat := bitStep (fun x y => (x + y) % 2) 32 a b

def lnot32 (x : Nat) : Nat := 4294967295 - w32 x

def rotr32 (n x : Nat) : Nat := w32 (x / 2 ^ n + x % 2 ^ n * 2 ^ (32 - n))

def shr32 (n x : Nat) : Nat := x / 2 ^ n

/-! ## SHA-256 (FIPS 180-4), as computed by the `sha2` crate on byte streams -/

def sha256ch (x y z : Nat) : Nat := lxor32 (land32 x y) (land32 (lnot32 x) z)

def sha256maj (x y z : Nat) : Nat :=
  lxor32 (lxor32 (land32 x y) (land32 x z)) (land32 y z)

def bsig0 (x : Nat) : Nat := lxor32 (lxor32 (rotr32 2 x) (rotr32 13 x)) (rotr32 22 x)

def bsig1 (x : Nat) : Nat := lxor32 (lxor32 (rotr32 6 x) (rotr32 11 x)) (rotr32 25 x)

def ssig0 (x : Nat) : Nat := lxor32 (lxor32 (rotr32 7 x) (rotr32 18 x)) (shr32 3 x)

def ssig1 (x : Nat) : Nat := lxor32 (lxor32 (rotr32 17 x) (rotr32 19 x)) (shr32 10 x)

def sha256K : List Nat :=
  [1116352408, 1899447441, 3049323471, 3921009573, 961987163,
   1508970993, 2453635748, 2870763221, 3624381080, 310598401,
   607225278, 1426881987, 1925078388, 2162078206, 2614888103,
   3248222580, 3835390401, 4022224774, 264347078, 604807628,
   770255983, 1249150122, 1555081692, 1996064986, 2554220882,
   2821834349, 2952996808, 3210313671, 3336571891, 3584528711,
   113926993, 338241895, 666307205, 773529912, 1294757372,
   1396182291, 1695183700, 1986661051, 2177026350, 2456956037,
   2730485921, 2820302411, 3259730800, 3345764771, 3516065817,
   3600352804, 4094571909, 275423344, 430227734, 506948616,
   659060556, 883997877, 958139571, 1322822218, 1537002063,
   1747873779, 1955562222, 2024104815, 2227730452, 2361852424,
   2428436474, 2756734187, 3204031479, 3329325298]

def sha256H0 : List Nat :=
  [1779033703, 3144134277, 1013904242, 2773480762, 1359893119,
   2600822924, 528734635, 1541459225]

def be64 (n : Nat) : List Nat :=
  [n / 2 ^ 56 % 256, n / 2 ^ 48 % 256, n / 2 ^ 40 % 256, n / 2 ^ 32 % 256,
   n / 2 ^ 24 % 256, n / 2 ^ 16 % 256, n / 2 ^ 8 % 256, n % 256]

def be32 (n : Nat) : List Nat :=
  [n / 2 ^ 24 % 256, n / 2 ^ 16 % 256, n / 2 ^ 8 % 256, n % 256]

def sha256pad (msg : List Nat) : List Nat :=
  msg ++ 128 :: List.replicate ((119 - msg.length % 64) % 64) 0 ++ be64 (8 * msg.length)

def bytesToWords : List Nat → List Nat
  | a :: b :: c :: d :: rest => (a * 16777216 + b * 65536 + c * 256 + d) :: bytesToWords rest
  | _ => []

def wAt (w : List Nat) (i : Nat) : Nat := w.getD i 0

def extendSchedule : Nat → List Nat → List Nat
  | 0, w => w
  | k + 1, w =>
    extendSchedule k (w ++ [w32 (ssig1 (wAt w (w.length - 2)) + wAt w (w.length - 7) +
      ssig0 (wAt w (w.length - 15)) + wAt w (w.length - 16))])

def sha256round (st : List Nat) (kw : Nat × Nat) : List Nat :=
  match st with
  | [a, b, c, d, e, f, g, h] =>
    let t1 := w32 (h + bsig1 e + sha256ch e f g + kw.1 + kw.2)
    let t2 := w32 (bsig0 a + sha256maj a b c)
    [w32 (t1 + t2), a, b, c, w32 (d + t1), e, f, g]
  | other => other

def compressBlock (h : List Nat) (ws : List Nat) : List Nat :=
  let sched := extendSchedule 48 ws
  let h2 := (sha256K.zip sched).foldl sha256round h
  List.zipWith (fun x y => w32 (x + y)) h h2

def sha256blocks : Nat → List Nat → List Nat → List Nat
  | _, [], h => h
  | 0, _, h => h
  | fuel + 1, ws, h => sha256blocks fuel (ws.drop 16) (compressBlock h (ws.take 16))

/-- SHA-256 digest (32 bytes) of a byte sequence; the hash used throughout the
engine for content addressing (`Sha256::new().chain_update(..).finalize()`). -/
def sha256bytes (msg : List Nat) : List Nat :=
  let ws := bytesToWords (sha256pad msg)
  ((sha256blocks ws.length ws sha256H0).map be32).flatten

/-- Sanity vector from the specification's end-to-end scenario 1: the blob for
body "hello" lives at `blobs/2c/f24dba...`, i.e. SHA-256("hello") =
2cf24dba5fb0a30e26e83b2ac5b9e29e1b161e5c1fa7425e73043362938b9824. -/
theorem sha256_hello_vector :
    sha256bytes [104, 101, 108, 108, 111] =
      [0x2c, 0xf2, 0x4d, 0xba, 0x5f, 0xb0, 0xa3, 0x0e,
       0x26, 0xe8, 0x3b, 0x2a, 0xc5, 0xb9, 0xe2, 0x9e,
       0x1b, 0x16, 0x1e, 0x5c, 0x1f, 0xa7, 0x42, 0x5e,
       0x73, 0x04, 0x33, 0x62, 0x93, 0x8b, 0x98, 0x24] := by decide

/-! ## Hex codec (`src/util.rs`)

Bytes are `Fin 256` here (Rust `u8`).  `char::from_digit(d, 16)` yields
lowercase digits; `char::to_digit(16)` accepts both cases.  Rust's
`data.len()` is the UTF-8 byte length of the string while `data.chars()`
iterates scalar values, so the model measures length in UTF-8 bytes. -/

def digitToChar16 (d : Nat) : Char :=
  if d < 10 then Char.ofNat (48 + d) else Char.ofNat (87 + d)

def charToDigit16 (c : Char) : Option Nat :=
  if '0' ≤ c ∧ c ≤ '9' then some (c.toNat - 48)
  else if 'a' ≤ c ∧ c ≤ 'f' then some (c.toNat - 87)
  else if 'A' ≤ c ∧ c ≤ 'F' then some (c.toNat - 55)
  else none

def utf8Len (s : List Char) : Nat := (s.map Char.utf8Size).sum

/-- Function `bytes_to_hex` from `src/util.rs`: each byte `x` becomes the two characters
`from_digit((x & 0xF0) >> 4, 16)` and `from_digit(x & 0xF, 16)`. -/
def bytes_to_hex (data : List (Fin 256)) : List Char :=
  (data.map fun x =>
    [digitToChar16 (shr32 4 (land32 x.val 0xF0)), digitToChar16 (land32 x.val 0xF)]).flatten

/-- The per-byte loop of `hex_to_byte_array`: take a char off the iterator and
convert it with `to_digit(16)` twice (`it.next()?.to_digit(16)?`), combine as
`(hi << 4 | lo) as u8`; iterator exhaustion or a conversion failure aborts the
whole function with `None`. -/
def decodeN : Nat → List Char → Option (List (Fin 256))
  | 0, _ => some []
  | n + 1, s =>
    match s with
    | [] => none
    | c1 :: s2 =>
      match charToDigit16 c1 with
      | none => none
      | some hi =>
        match s2 with
        | [] => none
        | c2 :: rest =>
          match charToDigit16 c2 with
          | none => none
          | some lo =>
            match decodeN n rest with
            | none => none
            | some bs =>
              some (⟨lor32 (hi <<< 4) lo % 256, Nat.mod_lt _ (by decide)⟩ :: bs)

/-- Function `hex_to_byte_array::<N>` from `src/util.rs`: reject when the byte length is
not `N * 2`, then decode `N` bytes pairwise. -/
def hex_to_byte_array (N : Nat) (data : List Char) : Option (List (Fin 256)) :=
  if utf8Len data ≠ N * 2 then none else decodeN N data

/-! ## Data model (`src/storage.rs`) -/

inductive Compression where
  | None
  | Gzip
deriving DecidableEq, Repr

/-- Record `FileMetadata` from `src/storage.rs`.  `DateTime<Utc>` versions are points
on an ordered timeline, embedded as `Int`. -/
structure FileMetadata where
  version : Int
  checksum : List Nat
  compression : Compression
  decompressed_size : Nat
deriving DecidableEq, Repr

inductive Err where
  | notFound
  | invalidData
  | notADirectory
deriving DecidableEq, Repr

/-- The on-disk state of a `BlobStorage` root: blob files keyed by the 32-byte
hash (the `<h[0:2]>/<h[2:64]>` path is a bijective rendering of the hash), and
the `.count` sidecar files.  `read_usize` failures other than absence are not
reachable through the engine, so counts are stored parsed. -/
structure BlobState where
  blobs : List (List Nat × List Nat)
  counts : List (List Nat × Nat)
deriving DecidableEq, Repr

/-- The on-disk state of a `LocalStorage` root: the metadata tree (path to
parsed `FileMetadata` record) plus the blob pool. -/
structure Store where
  meta : List (String × FileMetadata)
  blobState : BlobState
deriving DecidableEq, Repr

/-! ## BlobStorage (`src/blobstorage.rs`) -/

/-- Operation `BlobStorage::write`: if the blob file does not exist, stream the data into
`<name>.tmp`, rename onto the blob path and write `"1"` into the `.count`
sidecar, returning `true`; otherwise bump the sidecar by one and return
`false` without touching the blob or the stream. -/
def BlobStorage.write (sha256 : List Nat) (data : List Nat) (b : BlobState) :
    Except Err Bool × BlobState :=
  match lookupA b.blobs sha256 with
  | none =>
    -- copy into the `.tmp` sibling, rename to the final path, create `.count`
    (.ok true, ⟨insertA b.blobs sha256 data, insertA b.counts sha256 1⟩)
  | some _ =>
    match lookupA b.counts sha256 with
    | none => (.error .notFound, b)      -- `read_usize` on a missing sidecar
    | some refs => (.ok false, ⟨b.blobs, insertA b.counts sha256 (refs + 1)⟩)

/-- Operation `BlobStorage::read`: the blob contents, or `NotFound`. -/
def BlobStorage.read (sha256 : List Nat) (b : BlobState) : Except Err (List Nat) :=
  match lookupA b.blobs sha256 with
  | none => .error .notFound
  | some bytes => .ok bytes

/-- Operation `BlobStorage::decref`: read the `.count` sidecar (`NotFound` when absent);
at 1 remove sidecar and blob file, otherwise write back the decremented
count. -/
def BlobStorage.decref (sha256 : List Nat) (b : BlobState) :
    Except Err Unit × BlobState :=
  match lookupA b.counts sha256 with
  | none => (.error .notFound, b)
  | some refs =>
    if refs = 1 then (.ok (), ⟨eraseA b.blobs sha256, eraseA b.counts sha256⟩)
    else (.ok (), ⟨b.blobs, insertA b.counts sha256 (refs - 1)⟩)

/-- The documented blob-pool invariant, restricted to the keys present so it
stays decidable: every blob file has a `.count` sidecar holding at least 1, and
every sidecar accompanies a blob file. -/
def BlobInvB (b : BlobState) : Bool :=
  b.blobs.all (fun p =>
    match lookupA b.counts p.1 with
    | some r => 1 ≤ r
    | none => false) &&
  b.counts.all (fun p => (lookupA b.blobs p.1).isSome)

/-! ## LocalStorage (`src/storage.rs`)

The gzip encoder (`flate2::read::GzEncoder` at `Compression::new(9)`) and the
gzip decoder (`flate2::read::GzDecoder`) belong to an external crate; `put` is
parameterized by them: `gz` maps the raw bytes to the level-9 compressed
stream, `gunzip` decodes a compressed stream (erring on malformed input, as
`decoder.read` does). -/

/-- The three-way normalization at the top of `LocalStorage::put`
(`src/storage.rs` lines 145-180), producing
`(decompressed_size, checksum, stored bytes)`:
raw content hashes (unless a checksum was supplied: `checksum.unwrap_or_else`)
and is compressed; trusted gzip input passes through; untrusted gzip input is
decoded end-to-end to recover size and hash, then stored as received. -/
def normalizePut (gz : List Nat → List Nat) (gunzip : List Nat → Except Err (List Nat))
    (content : List Nat) (content_is_gzipped : Bool)
    (checksum : Option (List Nat)) (logical_size : Option Nat) :
    Except Err (Nat × List Nat × List Nat) :=
  if !content_is_gzipped then
    .ok (content.length,
         (match checksum with
          | some c => c
          | none => sha256bytes content),
         gz content)
  else
    match checksum, logical_size with
    | some c, some ls => .ok (ls, c, content)
    | _, _ =>
      match gunzip content with
      | .error e => .error e
      | .ok raw => .ok (raw.length, sha256bytes raw, content)

/-- Operation `LocalStorage::get`: under the path lock, read the metadata record for the
path, then the blob it references. -/
def LocalStorage.get (path : String) (st : Store) :
    Except Err (FileMetadata × List Nat) × Store :=
  (match lookupA st.meta path with
   | none => .error .notFound
   | some m =>
     match BlobStorage.read m.checksum st.blobState with
     | .error e => .error e
     | .ok bytes => .ok (m, bytes),
   st)

/-- Operation `LocalStorage::head` (`src/storage.rs` lines 130-134): under the path lock,
read and return the metadata record alone — the blob is never consulted and no
on-disk size accompanies the result. -/
def LocalStorage.head (path : String) (st : Store) :
    Except Err FileMetadata × Store :=
  (match lookupA st.meta path with
   | none => .error .notFound
   | some m => .ok m,
   st)

/-- Steps 3-4 of `put`: `create_dir_all` for the parent (implicit in the
path-keyed map), `blobs.write` of the stored bytes, then serialize the new
record (compression is always `Gzip`) over the metadata file. -/
def putCommit (path : String) (version : Int) (dsize : Nat)
    (checksum stored : List Nat) (st : Store) : Except Err Unit × Store :=
  match BlobStorage.write checksum stored st.blobState with
  | (.error e, b) => (.error e, ⟨st.meta, b⟩)
  | (.ok _, b) => (.ok (), ⟨insertA st.meta path ⟨version, checksum, .Gzip, dsize⟩, b⟩)

/-- Operation `LocalStorage::put` (`src/storage.rs` lines 136-211).  After normalization:
read the existing record (absence proceeds, other read errors propagate); a
strictly newer existing version returns success untouched; otherwise decref the
old blob, write the new one and commit the record.  Note the path-lock future
built on line 182 is never awaited (see the C2 lock-event model). -/
def LocalStorage.put (gz : List Nat → List Nat)
    (gunzip : List Nat → Except Err (List Nat))
    (path : String) (version : Int) (content : List Nat)
    (content_is_gzipped : Bool) (checksum : Option (List Nat))
    (logical_size : Option Nat) (st : Store) : Except Err Unit × Store :=
  match normalizePut gz gunzip content content_is_gzipped checksum logical_size with
  | .error e => (.error e, st)
  | .ok (dsize, cksum, stored) =>
    match lookupA st.meta path with
    | some m =>
      if m.version > version then (.ok (), st)
      else
        match BlobStorage.decref m.checksum st.blobState with
        | (.error e, b) => (.error e, ⟨st.meta, b⟩)
        | (.ok _, b) => putCommit path version dsize cksum stored ⟨st.meta, b⟩
    | none => putCommit path version dsize cksum stored st

/-- Operation `LocalStorage::delete`: under the path lock, read the record (`NotFound`
propagates); within the version bound decref the referenced blob and remove
the metadata file, otherwise change nothing; both return success. -/
def LocalStorage.delete (path : String) (max_version : Int) (st : Store) :
    Except Err Unit × Store :=
  match lookupA st.meta path with
  | none => (.error .notFound, st)
  | some m =>
    if m.version ≤ max_version then
      match BlobStorage.decref m.checksum st.blobState with
      | (.error e, b) => (.error e, ⟨st.meta, b⟩)
      | (.ok _, b) => (.ok (), ⟨eraseA st.meta path, b⟩)
    else (.ok (), st)

/-! ## Lock usage of each operation (`src/lockmap.rs`, `src/storage.rs`)

`LockMap::lock_ref` returns a future; the per-key tokio mutex is acquired only
when that future is awaited, and released when the guard drops.  Each storage
operation is mapped to the sequence of lock events its body performs:

- `get` (line 124), `head` (line 131), `delete` (line 214):
  `self.locks.lock_ref(path).await` — the path lock is acquired and the guard
  held to the end of the body.
- `put` (line 182): `let _guard = self.locks.lock_ref(path);` — the future is
  built but never awaited and is dropped unpolled, so no path-lock acquisition
  or release ever happens inside `put`.
- `BlobStorage::write` (line 36) and `BlobStorage::decref` (line 63) acquire
  the per-hash lock with `.await`. -/

inductive LockEvent where
  | acquirePath (p : String)
  | releasePath (p : String)
  | acquireHash (h : List Nat)
  | releaseHash (h : List Nat)
deriving DecidableEq, Repr

def getLockEvents (path : String) : List LockEvent :=
  [.acquirePath path, .releasePath path]

def headLockEvents (path : String) : List LockEvent :=
  [.acquirePath path, .releasePath path]

def deleteLockEvents (path : String) (existing : Option FileMetadata)
    (max_version : Int) : List LockEvent :=
  .acquirePath path ::
    ((match existing with
      | some m =>
        if m.version ≤ max_version then [.acquireHash m.checksum, .releaseHash m.checksum]
        else []
      | none => []) ++ [.releasePath path])

set_option linter.unusedVariables false in
/-- Lock events of `put` after normalization: the hash lock is taken inside
`decref` (when an existing record with version ≤ the new one is replaced) and
inside `write`, but the path lock is never acquired — line 182 drops the
`lock_ref` future without awaiting it, so `path` contributes no event. -/
def putLockEvents (path : String) (new_checksum : List Nat)
    (existing : Option FileMetadata) (version : Int) : List LockEvent :=
  match existing with
  | some m =>
    if m.version > version then []
    else [.acquireHash m.checksum, .releaseHash m.checksum,
          .acquireHash new_checksum, .releaseHash new_checksum]
  | none => [.acquireHash new_checksum, .releaseHash new_checksum]

/-! ## The metadata directory tree and the recursive lister (`src/storage.rs`)

Directory entries are modelled with a mutual inductive (so all recursions stay
structural): a file holds its parsed metadata record, a directory holds a
named entry list, and `other` stands for the non-file non-directory entries
the lister skips.  Filesystem paths are component lists, relative to the
metadata root (Rust `Path` operations such as `strip_prefix` work on
components). -/

mutual
inductive FsTree where
  | file (meta : FileMetadata)
  | dir (entries : FsEntries)
  | other
inductive FsEntries where
  | nil
  | cons (name : String) (tree : FsTree) (rest : FsEntries)
end

def FsEntries.toList : FsEntries → List (String × FsTree)
  | .nil => []
  | .cons n t rest => (n, t) :: rest.toList

mutual
/-- Real directories never hold two entries of the same name; `wf` states that
for every directory of the tree. -/
def FsTree.wf : FsTree → Bool
  | .file _ => true
  | .other => true
  | .dir es => nodupKeysB es.toList && es.wf
def FsEntries.wf : FsEntries → Bool
  | .nil => true
  | .cons _ t rest => t.wf && rest.wf
end

/-- Resolve a component path inside a tree (the filesystem lookup underlying
`read_dir` of `<metadata_root>/<path>`). -/
def lookupTree : FsTree → List String → Option FsTree
  | t, [] => some t
  | .dir es, n :: rest =>
    match lookupA es.toList n with
    | some t => lookupTree t rest
    | none => none
  | _, _ :: _ => none

/-- One open `ReadDir` of the traversal: the remaining entries, each paired
with its full path (`DirEntry::path` includes the directory the reader was
opened on). -/
def FsEntries.toFrame (base : List String) (es : FsEntries) :
    List (List String × FsTree) :=
  es.toList.map fun e => (base ++ [e.1], e.2)

/-- Structure `FileLister` from `src/storage.rs`: the stack of open directory readers,
the `metadata` field holding the directory the listing was opened on (which
`next` strips from every yielded path), and the version bound. -/
structure FileLister where
  readdir_stack : List (List (List String × FsTree))
  metadata : List String
  max_version : Int

/-- Method `FileLister::next` (`src/storage.rs` lines 69-101), with a fuel argument
standing in for the loop (every theorem below quantifies over the fuel).  Take
an entry from the top reader: push directories, skip `other` entries, yield a
file whose `version ≤ max_version` as `path.strip_prefix(&self.metadata)`,
pop exhausted readers. -/
def FileLister.next : Nat → FileLister → Option (Except Err (List String × FileMetadata)) × FileLister
  | 0, l => (none, l)
  | fuel + 1, l =>
    match l.readdir_stack with
    | [] => (none, l)
    | current :: rest =>
      match current with
      | [] => FileLister.next fuel { l with readdir_stack := rest }
      | (p, t) :: remaining =>
        match t with
        | .dir es =>
          FileLister.next fuel
            { l with readdir_stack := es.toFrame p :: remaining :: rest }
        | .file m =>
          if m.version ≤ l.max_version then
            (some (.ok (p.drop l.metadata.length, m)),
             { l with readdir_stack := remaining :: rest })
          else FileLister.next fuel { l with readdir_stack := remaining :: rest }
        | .other => FileLister.next fuel { l with readdir_stack := remaining :: rest }

/-- Drain the iterator: the finite sequence of items it yields. -/
def collectList : Nat → FileLister → List (Except Err (List String × FileMetadata))
  | 0, _ => []
  | fuel + 1, l =>
    match FileLister.next (fuel + 1) l with
    | (none, _) => []
    | (some x, l₂) => x :: collectList fuel l₂

/-- Operation `LocalStorage::list` (`src/storage.rs` lines 223-235): `read_dir` on
`<metadata_root>/<path>` (absence is `NotFound`, a non-directory is the
`NotADirectory` io error), and a lister whose stack holds that one reader and
whose `metadata` field is the joined directory. -/
def LocalStorage.list (tree : FsTree) (path : List String) (max_version : Int) :
    Except Err FileLister :=
  match lookupTree tree path with
  | some (.dir es) => .ok ⟨[es.toFrame path], path, max_version⟩
  | some _ => .error .notADirectory
  | none => .error .notFound

/-! ## Association-list lemmas -/

theorem lookupA_insertA_ne {κ α : Type} [DecidableEq κ]
    (l : List (κ × α)) {k k₂ : κ} (v : α) (h : k ≠ k₂) :
    lookupA (insertA l k v) k₂ = lookupA l k₂ := by
  induction l with
  | nil => simp [insertA, lookupA, h]
  | cons hd tl ih =>
    obtain ⟨k', v'⟩ := hd
    by_cases hk : k' = k
    · subst hk
      simp [insertA, lookupA, h]
    · simp [insertA, lookupA, hk, ih]

theorem lookupA_eraseA_ne {κ α : Type} [DecidableEq κ]
    (l : List (κ × α)) {k k₂ : κ} (h : k ≠ k₂) :
    lookupA (eraseA l k) k₂ = lookupA l k₂ := by
  induction l with
  | nil => simp [eraseA]
  | cons hd tl ih =>
    obtain ⟨k', v'⟩ := hd
    by_cases hk : k' = k
    · subst hk
      simp [eraseA, lookupA, h]
    · simp [eraseA, lookupA, hk, ih]

theorem mem_of_mem_eraseA {κ α : Type} [DecidableEq κ]
    {l : List (κ × α)} {k : κ} {x : κ × α} (h : x ∈ eraseA l k) : x ∈ l := by
  induction l with
  | nil => simp [eraseA] at h
  | cons hd tl ih =>
    obtain ⟨k', v'⟩ := hd
    by_cases hk : k' = k
    · subst hk
      simp [eraseA] at h
      simp [h]
    · simp [eraseA, hk] at h
      rcases h with h | h
      · simp [h]
      · exact List.mem_cons_of_mem _ (ih h)

theorem lookupA_eraseA_self {κ α : Type} [DecidableEq κ]
    {l : List (κ × α)} (hnd : nodupKeysB l = true) (k : κ) :
    lookupA (eraseA l k) k = none := by
  induction l with
  | nil => simp [eraseA, lookupA]
  | cons hd tl ih =>
    obtain ⟨k', v'⟩ := hd
    simp [nodupKeysB, Bool.and_eq_true] at hnd
    by_cases hk : k' = k
    · subst hk
      simpa [eraseA, Option.isNone_iff_eq_none] using hnd.1
    · simp [eraseA, lookupA, hk, ih hnd.2]

/-- Both directions of the blob-pool invariant, in lookup form. -/
theorem blobInv_counts {b : BlobState} (hinv : BlobInvB b = true)
    {c bytes : List Nat} (hb : lookupA b.blobs c = some bytes) :
    ∃ r, lookupA b.counts c = some r ∧ 1 ≤ r := by
  have hmem := lookupA_mem hb
  rw [BlobInvB, Bool.and_eq_true, List.all_eq_true, List.all_eq_true] at hinv
  have := hinv.1 _ hmem
  cases hc : lookupA b.counts c with
  | none => rw [hc] at this; exact absurd this (by simp)
  | some r =>
    rw [hc] at this
    exact ⟨r, rfl, by simpa using this⟩

theorem blobInv_blobs {b : BlobState} (hinv : BlobInvB b = true)
    {c : List Nat} {r : Nat} (hc : lookupA b.counts c = some r) :
    (lookupA b.blobs c).isSome := by
  have hmem := lookupA_mem hc
  rw [BlobInvB, Bool.and_eq_true, List.all_eq_true, List.all_eq_true] at hinv
  exact hinv.2 _ hmem

/-! ## Claims C6, C7, C10 : the blob pool -/

/-- Claim C6 (confirmed).  `BlobStore::write(h, data)`: when the blob file for
`h` is absent the data is persisted as the blob (the `.tmp` staging and rename
collapse to the single visible insertion in this model), the refcount sidecar
is created holding 1, and `true` is returned; when the blob exists the sidecar
is rewritten with its previous value plus one and `false` is returned.  In
both cases the blob is present afterwards with one additional reference. -/
theorem c6_blob_write (hsh data : List Nat) (b : BlobState) :
    (lookupA b.blobs hsh = none →
      BlobStorage.write hsh data b =
        (.ok true, ⟨insertA b.blobs hsh data, insertA b.counts hsh 1⟩))
    ∧ (∀ bytes r, lookupA b.blobs hsh = some bytes → lookupA b.counts hsh = some r →
      BlobStorage.write hsh data b =
        (.ok false, ⟨b.blobs, insertA b.counts hsh (r + 1)⟩)) := by
  constructor
  · intro hb
    simp [BlobStorage.write, hb]
  · intro bytes r hb hc
    simp [BlobStorage.write, hb, hc]

/-- Witness for C6 at a concrete pool: a fresh write creates blob and sidecar
and returns `true`; a second write of the same hash only bumps the sidecar to
2 and returns `false`. -/
theorem c6_blob_write_witness :
    BlobStorage.write [1] [2] ⟨[], []⟩ = (.ok true, ⟨[([1], [2])], [([1], 1)]⟩)
    ∧ BlobStorage.write [1] [9] ⟨[([1], [2])], [([1], 1)]⟩ =
        (.ok false, ⟨[([1], [2])], [([1], 2)]⟩) :=
  ⟨(c6_blob_write [1] [2] ⟨[], []⟩).1 rfl,
   (c6_blob_write [1] [9] ⟨[([1], [2])], [([1], 1)]⟩).2 [2] 1 rfl rfl⟩

/-- Claim C7 (confirmed).  `decref(h)` with the sidecar holding 1 removes both
the sidecar and the blob file; with the sidecar holding `r > 1` it writes back
`r - 1`; and when the blob is absent (which under the pool invariant means the
sidecar is absent too) it fails with an error. -/
theorem c7_blob_decref (hsh : List Nat) (b : BlobState) :
    (lookupA b.counts hsh = some 1 →
      BlobStorage.decref hsh b = (.ok (), ⟨eraseA b.blobs hsh, eraseA b.counts hsh⟩))
    ∧ (∀ r, lookupA b.counts hsh = some r → 1 < r →
      BlobStorage.decref hsh b = (.ok (), ⟨b.blobs, insertA b.counts hsh (r - 1)⟩))
    ∧ (BlobInvB b = true → lookupA b.blobs hsh = none →
      BlobStorage.decref hsh b = (.error .notFound, b)) := by
  refine ⟨fun hc => ?_, fun r hc hr => ?_, fun hinv hb => ?_⟩
  · simp [BlobStorage.decref, hc]
  · simp [BlobStorage.decref, hc, Nat.ne_of_gt hr]
  · cases hc : lookupA b.counts hsh with
    | none => simp [BlobStorage.decref, hc]
    | some r =>
      have := blobInv_blobs hinv hc
      rw [hb] at this
      simp at this

/-- Witness for C7 at a concrete pool: refcount 1 removes blob and sidecar;
refcount 3 becomes 2; an absent blob (empty invariant-satisfying pool) is an
error. -/
theorem c7_blob_decref_witness :
    BlobStorage.decref [1] ⟨[([1], [2])], [([1], 1)]⟩ = (.ok (), ⟨[], []⟩)
    ∧ BlobStorage.decref [1] ⟨[([1], [2])], [([1], 3)]⟩ =
        (.ok (), ⟨[([1], [2])], [([1], 2)]⟩)
    ∧ BlobStorage.decref [1] ⟨[], []⟩ = (.error .notFound, ⟨[], []⟩) :=
  ⟨(c7_blob_decref [1] ⟨[([1], [2])], [([1], 1)]⟩).1 rfl,
   (c7_blob_decref [1] ⟨[([1], [2])], [([1], 3)]⟩).2.1 3 rfl (by decide),
   (c7_blob_decref [1] ⟨[], []⟩).2.2 rfl rfl⟩

/-- Claim C10 (confirmed).  When the blob file for `h` already exists,
`BlobStore::write(h, data)` never reads `data` (the result is the same
whatever stream is supplied) and leaves the stored blob bytes — those of the
first successful write — unchanged. -/
theorem c10_write_existing_ignores_data (hsh d1 d2 bytes : List Nat) (b : BlobState)
    (hb : lookupA b.blobs hsh = some bytes) :
    BlobStorage.write hsh d1 b = BlobStorage.write hsh d2 b
    ∧ (BlobStorage.write hsh d1 b).2.blobs = b.blobs := by
  constructor
  · simp [BlobStorage.write, hb]
  · cases hc : lookupA b.counts hsh <;> simp [BlobStorage.write, hb, hc]

/-- Witness for C10: with blob `[1]` present holding `[2]`, writing streams
`[7]` and `[8]` is indistinguishable and the stored bytes stay `[2]`. -/
theorem c10_write_existing_ignores_data_witness :
    BlobStorage.write [1] [7] ⟨[([1], [2])], [([1], 1)]⟩ =
      BlobStorage.write [1] [8] ⟨[([1], [2])], [([1], 1)]⟩
    ∧ (BlobStorage.write [1] [7] ⟨[([1], [2])], [([1], 1)]⟩).2.blobs = [([1], [2])] :=
  c10_write_existing_ignores_data [1] [7] [8] [2] ⟨[([1], [2])], [([1], 1)]⟩ rfl

/-! ## Claims C1-C4, C8 : the path store -/

/-- Claim C1, counterexample.  A `put` with `content_is_gzipped = false` and a
supplied checksum of 32 zero bytes persists those zero bytes as the record's
checksum (`checksum.unwrap_or_else(..)` trusts the caller), which is not the
SHA-256 of the content — refuting the claim that the checksum is always
derived by hashing the raw content. -/
theorem c1_checksum_counterexample :
    (LocalStorage.put (fun l => l) (fun _ => .error .invalidData) "p" 0 [] false
        (some (List.replicate 32 0)) none ⟨[], ⟨[], []⟩⟩).2.meta =
      [("p", ⟨0, List.replicate 32 0, Compression.Gzip, 0⟩)]
    ∧ List.replicate 32 0 ≠ sha256bytes [] := by
  exact ⟨rfl, by decide⟩

/-- Claim C1 as amended (proved).  For `content_is_gzipped = false` the
persisted checksum is the supplied one when present and SHA-256 of the raw
content otherwise; `decompressed_size = len(content)`; and the stored blob
bytes are the gzip-level-9 encoder's output on the content (the encoder is the
`gz` parameter).  Stated for a path without an existing record and a not yet
stored blob, so the full persisted state is visible. -/
theorem c1_put_raw_content (gz : List Nat → List Nat)
    (gunzip : List Nat → Except Err (List Nat)) (path : String) (version : Int)
    (content : List Nat) (ck : Option (List Nat)) (ls : Option Nat) (st : Store)
    (hmeta : lookupA st.meta path = none)
    (hblob : lookupA st.blobState.blobs (ck.getD (sha256bytes content)) = none) :
    LocalStorage.put gz gunzip path version content false ck ls st =
      (.ok (), ⟨insertA st.meta path
          ⟨version, ck.getD (sha256bytes content), .Gzip, content.length⟩,
        ⟨insertA st.blobState.blobs (ck.getD (sha256bytes content)) (gz content),
         insertA st.blobState.counts (ck.getD (sha256bytes content)) 1⟩⟩) := by
  cases ck with
  | none =>
    have hn : normalizePut gz gunzip content false none ls =
        .ok (content.length, sha256bytes content, gz content) := rfl
    simp only [Option.getD] at hblob ⊢
    simp [LocalStorage.put, hn, hmeta, hblob, putCommit, BlobStorage.write]
  | some c =>
    have hn : normalizePut gz gunzip content false (some c) ls =
        .ok (content.length, c, gz content) := rfl
    simp only [Option.getD] at hblob ⊢
    simp [LocalStorage.put, hn, hmeta, hblob, putCommit, BlobStorage.write]

/-- Witness for C1: a raw put of the byte `[104]` with no checksum persists the
derived SHA-256, the content length 1, and the encoder output as the blob. -/
theorem c1_put_raw_content_witness :
    LocalStorage.put (fun l => 31 :: l) (fun _ => .error .invalidData) "p" 4 [104]
        false none none ⟨[], ⟨[], []⟩⟩ =
      (.ok (), ⟨[("p", ⟨4, sha256bytes [104], .Gzip, 1⟩)],
        ⟨[(sha256bytes [104], [31, 104])], [(sha256bytes [104], 1)]⟩⟩) :=
  c1_put_raw_content (fun l => 31 :: l) (fun _ => .error .invalidData) "p" 4 [104]
    none none ⟨[], ⟨[], []⟩⟩ rfl rfl

/-- Claim C2 (the code lacks the claimed locking).  `put` builds the path-lock
future on `src/storage.rs` line 182 without awaiting it, so its lock-event
trace contains no path-lock acquisition or release at all — while `get` and
`delete` do acquire the path lock.  The trace shown is the full
read-metadata / decref / blob-write / metadata-commit sequence of an
overwriting put (existing version 0 ≤ new version 7). -/
theorem c2_put_path_lock_missing :
    LockEvent.acquirePath "a/b" ∉ putLockEvents "a/b" [2] (some ⟨0, [1], .Gzip, 5⟩) 7
    ∧ LockEvent.releasePath "a/b" ∉ putLockEvents "a/b" [2] (some ⟨0, [1], .Gzip, 5⟩) 7
    ∧ LockEvent.acquirePath "a/b" ∈ getLockEvents "a/b"
    ∧ LockEvent.acquirePath "a/b" ∈ deleteLockEvents "a/b" (some ⟨0, [1], .Gzip, 5⟩) 7 := by
  decide

/-- Claim C3 (the code returns no size).  On a store where the record for
`"a/b"` exists and its referenced blob is present on disk with 3 stored bytes,
`LocalStorage::head` returns the bare `FileMetadata` — its result type carries
no on-disk byte count (the pair the claim, the spec §4.5 and the caller
`main.rs` `head_file` expect does not exist in `storage.rs`). -/
theorem c3_head_returns_metadata_only :
    LocalStorage.head "a/b"
        ⟨[("a/b", ⟨3, [7], .Gzip, 5⟩)], ⟨[([7], [31, 139, 8])], [([7], 1)]⟩⟩ =
      (.ok ⟨3, [7], .Gzip, 5⟩,
       ⟨[("a/b", ⟨3, [7], .Gzip, 5⟩)], ⟨[([7], [31, 139, 8])], [([7], 1)]⟩⟩) := rfl

/-- Claim C4 (confirmed).  After successful normalization, a `put` against an
existing record with a strictly greater version returns success and leaves the
whole store (metadata, blobs, refcounts) untouched; with
`existing.version ≤ version` (ties included) it proceeds and overwrites the
record.  The pool invariant and key uniqueness reflect states the engine
itself produces. -/
theorem c4_put_version_gate (gz : List Nat → List Nat)
    (gunzip : List Nat → Except Err (List Nat))
    (path : String) (version : Int) (content : List Nat) (isGz : Bool)
    (ck : Option (List Nat)) (ls : Option Nat) (st : Store)
    (m : FileMetadata) (d r : Nat) (c stored : List Nat)
    (hm : lookupA st.meta path = some m)
    (hn : normalizePut gz gunzip content isGz ck ls = .ok (d, c, stored))
    (hc : lookupA st.blobState.counts m.checksum = some r)
    (hinv : BlobInvB st.blobState = true)
    (hnd : nodupKeysB st.blobState.blobs = true) :
    (version < m.version →
      LocalStorage.put gz gunzip path version content isGz ck ls st = (.ok (), st))
    ∧ (m.version ≤ version →
      (LocalStorage.put gz gunzip path version content isGz ck ls st).1 = .ok ()
      ∧ lookupA (LocalStorage.put gz gunzip path version content isGz ck ls st).2.meta path
          = some ⟨version, c, .Gzip, d⟩) := by
  constructor
  · intro hv
    simp [LocalStorage.put, hn, hm, hv]
  · intro hv
    have hv2 : ¬ version < m.version := not_lt.mpr hv
    by_cases hr1 : r = 1
    · subst hr1
      have hdec : BlobStorage.decref m.checksum st.blobState =
          (.ok (), ⟨eraseA st.blobState.blobs m.checksum,
                    eraseA st.blobState.counts m.checksum⟩) := by
        simp [BlobStorage.decref, hc]
      cases hb2 : lookupA (eraseA st.blobState.blobs m.checksum) c with
      | none =>
        simp [LocalStorage.put, hn, hm, hv2, hdec, putCommit, BlobStorage.write, hb2,
          lookupA_insertA_self]
      | some bytes2 =>
        have hne : m.checksum ≠ c := by
          intro he
          rw [he, lookupA_eraseA_self hnd c] at hb2
          exact absurd hb2 (by simp)
        have hb0 : lookupA st.blobState.blobs c = some bytes2 := by
          rw [← lookupA_eraseA_ne st.blobState.blobs hne]
          exact hb2
        obtain ⟨r₂, hc₂, _⟩ := blobInv_counts hinv hb0
        have hc₃ : lookupA (eraseA st.blobState.counts m.checksum) c = some r₂ := by
          rw [lookupA_eraseA_ne _ hne]
          exact hc₂
        simp [LocalStorage.put, hn, hm, hv2, hdec, putCommit, BlobStorage.write, hb2, hc₃,
          lookupA_insertA_self]
    · have hdec : BlobStorage.decref m.checksum st.blobState =
          (.ok (), ⟨st.blobState.blobs, insertA st.blobState.counts m.checksum (r - 1)⟩) := by
        simp [BlobStorage.decref, hc, hr1]
      cases hb2 : lookupA st.blobState.blobs c with
      | none =>
        simp [LocalStorage.put, hn, hm, hv2, hdec, putCommit, BlobStorage.write, hb2,
          lookupA_insertA_self]
      | some bytes2 =>
        obtain ⟨r₂, hc₂, _⟩ := blobInv_counts hinv hb2
        by_cases hce : m.checksum = c
        · subst hce
          simp [LocalStorage.put, hn, hm, hv2, hdec, putCommit, BlobStorage.write, hb2,
            lookupA_insertA_self]
        · have hc₃ : lookupA (insertA st.blobState.counts m.checksum (r - 1)) c = some r₂ := by
            rw [lookupA_insertA_ne _ _ hce]
            exact hc₂
          simp [LocalStorage.put, hn, hm, hv2, hdec, putCommit, BlobStorage.write, hb2, hc₃,
            lookupA_insertA_self]

/-- Witness for C4 on a concrete store holding `"p"` at version 5 over blob
`[7]` with refcount 1: a put at version 3 is dropped with the store unchanged;
a put at the tying version 5 succeeds and overwrites the record. -/
theorem c4_put_version_gate_witness :
    LocalStorage.put (fun _ => [3]) (fun _ => .error .invalidData) "p" 3 [9] false
        (some [4]) none ⟨[("p", ⟨5, [7], .Gzip, 1⟩)], ⟨[([7], [2])], [([7], 1)]⟩⟩ =
      (.ok (), ⟨[("p", ⟨5, [7], .Gzip, 1⟩)], ⟨[([7], [2])], [([7], 1)]⟩⟩)
    ∧ lookupA (LocalStorage.put (fun _ => [3]) (fun _ => .error .invalidData) "p" 5 [9] false
        (some [4]) none ⟨[("p", ⟨5, [7], .Gzip, 1⟩)], ⟨[([7], [2])], [([7], 1)]⟩⟩).2.meta "p" =
      some ⟨5, [4], .Gzip, 1⟩ :=
  ⟨(c4_put_version_gate (fun _ => [3]) (fun _ => .error .invalidData) "p" 3 [9] false
      (some [4]) none ⟨[("p", ⟨5, [7], .Gzip, 1⟩)], ⟨[([7], [2])], [([7], 1)]⟩⟩
      ⟨5, [7], .Gzip, 1⟩ 1 1 [4] [3] rfl rfl rfl rfl rfl).1 (by decide),
   ((c4_put_version_gate (fun _ => [3]) (fun _ => .error .invalidData) "p" 5 [9] false
      (some [4]) none ⟨[("p", ⟨5, [7], .Gzip, 1⟩)], ⟨[([7], [2])], [([7], 1)]⟩⟩
      ⟨5, [7], .Gzip, 1⟩ 1 1 [4] [3] rfl rfl rfl rfl rfl).2 (by decide)).2⟩

/-- Claim C8 (confirmed).  `delete(path, max_version)`: an absent record fails
with not-found; a record within the bound (inclusive) has its blob
decref'ed and its metadata file removed, returning success; a newer record is
left untouched with success. -/
theorem c8_delete (path : String) (max_version : Int) (st : Store) :
    (lookupA st.meta path = none →
      LocalStorage.delete path max_version st = (.error .notFound, st))
    ∧ (∀ m, lookupA st.meta path = some m →
        (∀ r, lookupA st.blobState.counts m.checksum = some r →
          m.version ≤ max_version →
          LocalStorage.delete path max_version st =
            (.ok (), ⟨eraseA st.meta path, (BlobStorage.decref m.checksum st.blobState).2⟩))
        ∧ (max_version < m.version →
          LocalStorage.delete path max_version st = (.ok (), st))) := by
  refine ⟨fun hm => ?_, fun m hm => ⟨fun r hc hv => ?_, fun hv => ?_⟩⟩
  · simp [LocalStorage.delete, hm]
  · by_cases hr1 : r = 1
    · subst hr1
      simp [LocalStorage.delete, hm, hv, BlobStorage.decref, hc]
    · simp [LocalStorage.delete, hm, hv, BlobStorage.decref, hc, hr1]
  · simp [LocalStorage.delete, hm, not_le.mpr hv]

/-- Witness for C8: deleting an absent path errs; deleting `"p"` (version 5)
at bound 9 removes record, blob and sidecar; at bound 3 nothing changes. -/
theorem c8_delete_witness :
    LocalStorage.delete "q" 9 ⟨[("p", ⟨5, [7], .Gzip, 1⟩)], ⟨[([7], [2])], [([7], 1)]⟩⟩ =
      (.error .notFound, ⟨[("p", ⟨5, [7], .Gzip, 1⟩)], ⟨[([7], [2])], [([7], 1)]⟩⟩)
    ∧ LocalStorage.delete "p" 9 ⟨[("p", ⟨5, [7], .Gzip, 1⟩)], ⟨[([7], [2])], [([7], 1)]⟩⟩ =
      (.ok (), ⟨[], ⟨[], []⟩⟩)
    ∧ LocalStorage.delete "p" 3 ⟨[("p", ⟨5, [7], .Gzip, 1⟩)], ⟨[([7], [2])], [([7], 1)]⟩⟩ =
      (.ok (), ⟨[("p", ⟨5, [7], .Gzip, 1⟩)], ⟨[([7], [2])], [([7], 1)]⟩⟩) :=
  ⟨(c8_delete "q" 9 ⟨[("p", ⟨5, [7], .Gzip, 1⟩)], ⟨[([7], [2])], [([7], 1)]⟩⟩).1 rfl,
   ((c8_delete "p" 9 ⟨[("p", ⟨5, [7], .Gzip, 1⟩)], ⟨[([7], [2])], [([7], 1)]⟩⟩).2
      ⟨5, [7], .Gzip, 1⟩ rfl).1 1 rfl (by decide),
   ((c8_delete "p" 3 ⟨[("p", ⟨5, [7], .Gzip, 1⟩)], ⟨[([7], [2])], [([7], 1)]⟩⟩).2
      ⟨5, [7], .Gzip, 1⟩ rfl).2 (by decide)⟩

/-! ## Claim C9 : the hex codec -/

/-- Lowercase hexadecimal alphabet (digits and `'a'`-`'f'`). -/
def isLowerHexChar (c : Char) : Bool :=
  ('0' ≤ c && c ≤ '9') || ('a' ≤ c && c ≤ 'f')

/-- All per-byte facts about the encoder pair of characters, settled by
exhausting the 256 bytes. -/
theorem hexByte_facts : ∀ x : Fin 256,
    charToDigit16 (digitToChar16 (shr32 4 (land32 x.val 0xF0))) = some (x.val / 16)
    ∧ charToDigit16 (digitToChar16 (land32 x.val 0xF)) = some (x.val % 16)
    ∧ lor32 ((x.val / 16) <<< 4) (x.val % 16) % 256 = x.val
    ∧ isLowerHexChar (digitToChar16 (shr32 4 (land32 x.val 0xF0))) = true
    ∧ isLowerHexChar (digitToChar16 (land32 x.val 0xF)) = true
    ∧ Char.utf8Size (digitToChar16 (shr32 4 (land32 x.val 0xF0))) = 1
    ∧ Char.utf8Size (digitToChar16 (land32 x.val 0xF)) = 1 := by decide

theorem bytes_to_hex_cons (x : Fin 256) (rest : List (Fin 256)) :
    bytes_to_hex (x :: rest) =
      digitToChar16 (shr32 4 (land32 x.val 0xF0)) ::
        digitToChar16 (land32 x.val 0xF) :: bytes_to_hex rest := by
  simp [bytes_to_hex]

theorem bytes_to_hex_props (data : List (Fin 256)) :
    utf8Len (bytes_to_hex data) = 2 * data.length
    ∧ (bytes_to_hex data).length = 2 * data.length
    ∧ (bytes_to_hex data).all isLowerHexChar = true := by
  induction data with
  | nil => simp [bytes_to_hex, utf8Len]
  | cons x rest ih =>
    have h := hexByte_facts x
    rw [bytes_to_hex_cons]
    refine ⟨?_, ?_, ?_⟩
    · simp only [utf8Len, List.map_cons, List.sum_cons] at ih ⊢
      rw [h.2.2.2.2.2.1, h.2.2.2.2.2.2, ih.1]
      simp [List.length_cons]
      ring
    · simp only [List.length_cons, ih.2.1]
      ring
    · simp [List.all_cons, h.2.2.2.1, h.2.2.2.2.1, ih.2.2]

theorem decodeN_encPair (x : Fin 256) (n : Nat) (rest : List Char) :
    decodeN (n + 1) (digitToChar16 (shr32 4 (land32 x.val 0xF0)) ::
        digitToChar16 (land32 x.val 0xF) :: rest) =
      (decodeN n rest).map fun bs => x :: bs := by
  have h := hexByte_facts x
  rw [decodeN]
  simp only [h.1, h.2.1]
  have hb : (⟨lor32 ((x.val / 16) <<< 4) (x.val % 16) % 256,
      Nat.mod_lt _ (by decide)⟩ : Fin 256) = x := Fin.ext h.2.2.1
  simp only [hb]
  cases hr : decodeN n rest with
  | none => rfl
  | some bs => rfl

theorem decodeN_some_facts : ∀ (N : Nat) (s : List Char) (bs : List (Fin 256)),
    decodeN N s = some bs →
    2 * N ≤ s.length ∧ ∀ c ∈ s.take (2 * N), (charToDigit16 c).isSome := by
  intro N
  induction N with
  | zero =>
    intro s bs _
    simp
  | succ n ih =>
    intro s bs h
    match s with
    | [] => rw [decodeN] at h; exact absurd h (by simp)
    | [c1] =>
      rw [decodeN] at h
      cases h1 : charToDigit16 c1 <;> simp [h1] at h
    | c1 :: c2 :: rest =>
      rw [decodeN] at h
      cases h1 : charToDigit16 c1 with
      | none => simp [h1] at h
      | some hi =>
        simp only [h1] at h
        cases h2 : charToDigit16 c2 with
        | none => simp [h2] at h
        | some lo =>
          simp only [h2] at h
          cases hr : decodeN n rest with
          | none => simp [hr] at h
          | some bs2 =>
            obtain ⟨hlen, hall⟩ := ih rest bs2 hr
            have ht : 2 * (n + 1) = 2 * n + 1 + 1 := by ring
            constructor
            · simp only [List.length_cons]
              omega
            · intro c hc
              rw [ht, List.take_succ_cons, List.take_succ_cons] at hc
              rcases List.mem_cons.mp hc with rfl | hc
              · simp [h1]
              · rcases List.mem_cons.mp hc with rfl | hc
                · simp [h2]
                · exact hall c hc

theorem length_le_utf8Len (s : List Char) : s.length ≤ utf8Len s := by
  induction s with
  | nil => simp [utf8Len]
  | cons c rest ih =>
    have := Char.utf8Size_pos c
    simp only [utf8Len, List.map_cons, List.sum_cons, List.length_cons] at ih ⊢
    omega

/-- Claim C9 (confirmed).  `bytes_to_hex` produces exactly two lowercase
hexadecimal characters per byte with nothing in between;
`hex_to_byte_array::<N>` returns `None` whenever the input length differs from
`2 N` or any character fails `to_digit(16)`; and decoding an encoding returns
the original bytes. -/
theorem c9_hex_codec :
    (∀ data : List (Fin 256),
      (bytes_to_hex data).length = 2 * data.length
      ∧ (bytes_to_hex data).all isLowerHexChar = true)
    ∧ (∀ (N : Nat) (s : List Char), utf8Len s ≠ N * 2 → hex_to_byte_array N s = none)
    ∧ (∀ (N : Nat) (s : List Char) (c : Char), c ∈ s → charToDigit16 c = none →
        hex_to_byte_array N s = none)
    ∧ (∀ data : List (Fin 256),
        hex_to_byte_array data.length (bytes_to_hex data) = some data) := by
  refine ⟨fun data => (bytes_to_hex_props data).2, fun N s hlen => ?_, ?_, fun data => ?_⟩
  · simp [hex_to_byte_array, hlen]
  · intro N s c hc hnone
    by_cases hlen : utf8Len s = N * 2
    · cases hd : decodeN N s with
      | none => simp [hex_to_byte_array, hlen, hd]
      | some bs =>
        exfalso
        obtain ⟨hle, hall⟩ := decodeN_some_facts N s bs hd
        have h2 := length_le_utf8Len s
        have h3 : s.length ≤ 2 * N := by omega
        have := hall c (by rw [List.take_of_length_le h3]; exact hc)
        rw [hnone] at this
        exact absurd this (by simp)
    · simp [hex_to_byte_array, hlen]
  · have hlen : utf8Len (bytes_to_hex data) = data.length * 2 := by
      rw [(bytes_to_hex_props data).1]; ring
    have key : ∀ d : List (Fin 256), decodeN d.length (bytes_to_hex d) = some d := by
      intro d
      induction d with
      | nil => rfl
      | cons x rest ih =>
        rw [List.length_cons, bytes_to_hex_cons, decodeN_encPair, ih]
        rfl
    rw [hex_to_byte_array, if_neg (by omega), key]

/-- Witness for C9: length 3 input for `N = 2` fails; `"zz"` fails on the
non-hex `'z'`; the byte 171 encodes to `"ab"` (two lowercase hex chars) and
decodes back. -/
theorem c9_hex_codec_witness :
    hex_to_byte_array 2 ("abc".toList) = none
    ∧ hex_to_byte_array 1 ("zz".toList) = none
    ∧ (bytes_to_hex [(171 : Fin 256)]).length = 2 * [(171 : Fin 256)].length
    ∧ (bytes_to_hex [(171 : Fin 256)]).all isLowerHexChar = true
    ∧ hex_to_byte_array [(171 : Fin 256)].length (bytes_to_hex [(171 : Fin 256)]) =
        some [(171 : Fin 256)] :=
  ⟨c9_hex_codec.2.1 2 ("abc".toList) (by decide),
   c9_hex_codec.2.2.1 1 ("zz".toList) 'z' (by decide) (by decide),
   (c9_hex_codec.1 [(171 : Fin 256)]).1,
   (c9_hex_codec.1 [(171 : Fin 256)]).2,
   c9_hex_codec.2.2.2 [(171 : Fin 256)]⟩

/-! ## Claim C5 : the recursive lister -/

theorem lookupA_isSome_of_mem {κ α : Type} [DecidableEq κ]
    {l : List (κ × α)} {k : κ} {v : α} (hmem : (k, v) ∈ l) :
    (lookupA l k).isSome := by
  induction l with
  | nil => simp at hmem
  | cons hd tl ih =>
    obtain ⟨k₂, v₂⟩ := hd
    by_cases he : k₂ = k
    · simp [lookupA, he]
    · simp [lookupA, he]
      rcases List.mem_cons.mp hmem with h | h
      · rw [Prod.mk.injEq] at h
        exact absurd h.1.symm he
      · exact ih h

theorem lookupA_of_mem_nodupKeys {κ α : Type} [DecidableEq κ]
    {l : List (κ × α)} {k : κ} {v : α}
    (hnd : nodupKeysB l = true) (hmem : (k, v) ∈ l) : lookupA l k = some v := by
  induction l with
  | nil => simp at hmem
  | cons hd tl ih =>
    obtain ⟨k₂, v₂⟩ := hd
    rw [nodupKeysB, Bool.and_eq_true] at hnd
    rcases List.mem_cons.mp hmem with h | h
    · rw [Prod.mk.injEq] at h
      obtain ⟨h1, h2⟩ := h
      subst h1
      subst h2
      simp [lookupA]
    · by_cases he : k₂ = k
      · subst he
        have := lookupA_isSome_of_mem h
        rw [Option.isNone_iff_eq_none.mp hnd.1] at this
        exact absurd this (by simp)
      · simp only [lookupA, if_neg he]
        exact ih hnd.2 h

theorem wf_of_mem : ∀ (es : FsEntries), es.wf = true →
    ∀ {n : String} {t : FsTree}, (n, t) ∈ es.toList → t.wf = true
  | .nil, _, _, _, hmem => by simp [FsEntries.toList] at hmem
  | .cons n₂ t₂ rest, hwf, n, t, hmem => by
    rw [FsEntries.wf, Bool.and_eq_true] at hwf
    rw [FsEntries.toList] at hmem
    rcases List.mem_cons.mp hmem with h | h
    · rw [Prod.mk.injEq] at h
      rw [h.2]
      exact hwf.1
    · exact wf_of_mem rest hwf.2 h

theorem lookupTree_dir_one (es : FsEntries) (n : String) :
    lookupTree (.dir es) [n] = lookupA es.toList n := by
  rw [lookupTree]
  cases lookupA es.toList n <;> simp [lookupTree]

theorem lookupTree_append_one {tree : FsTree} {p : List String} {es : FsEntries}
    (hp : lookupTree tree p = some (.dir es)) (n : String) :
    lookupTree tree (p ++ [n]) = lookupA es.toList n := by
  induction p generalizing tree with
  | nil =>
    rw [lookupTree] at hp
    injection hp with hp
    subst hp
    exact lookupTree_dir_one es n
  | cons a p ih =>
    cases tree with
    | file m => simp [lookupTree] at hp
    | other => simp [lookupTree] at hp
    | dir es₂ =>
      rw [lookupTree] at hp
      rw [List.cons_append, lookupTree]
      cases ha : lookupA es₂.toList a with
      | none => simp [ha] at hp
      | some t =>
        simp only [ha] at hp ⊢
        exact ih hp

theorem wf_lookupTree : ∀ {p : List String} {tree sub : FsTree},
    tree.wf = true → lookupTree tree p = some sub → sub.wf = true := by
  intro p
  induction p with
  | nil =>
    intro tree sub hwf hp
    rw [lookupTree] at hp
    injection hp with hp
    subst hp
    exact hwf
  | cons a p ih =>
    intro tree sub hwf hp
    cases tree with
    | file m => simp [lookupTree] at hp
    | other => simp [lookupTree] at hp
    | dir es =>
      rw [lookupTree] at hp
      cases ha : lookupA es.toList a with
      | none => simp [ha] at hp
      | some t =>
        simp only [ha] at hp
        rw [FsTree.wf, Bool.and_eq_true] at hwf
        exact ih (wf_of_mem es hwf.2 (lookupA_mem ha)) hp

/-- A stack entry is coherent: its recorded full path resolves to its subtree,
and that path extends the directory the listing was opened on. -/
def entryOK (tree : FsTree) (base : List String) (e : List String × FsTree) : Prop :=
  lookupTree tree e.1 = some e.2 ∧ e.1.take base.length = base

def stackOK (tree : FsTree) (l : FileLister) : Prop :=
  ∀ frame ∈ l.readdir_stack, ∀ e ∈ frame, entryOK tree l.metadata e

theorem children_entryOK {tree : FsTree} (hwf : tree.wf = true)
    {p : List String} {es : FsEntries}
    (hp : lookupTree tree p = some (.dir es)) {base : List String}
    (hbase : p.take base.length = base) :
    ∀ e ∈ es.toFrame p, entryOK tree base e := by
  intro e he
  rw [FsEntries.toFrame, List.mem_map] at he
  obtain ⟨⟨n, t⟩, hmem, rfl⟩ := he
  have hsubwf := wf_lookupTree hwf hp
  rw [FsTree.wf, Bool.and_eq_true] at hsubwf
  constructor
  · rw [lookupTree_append_one hp n]
    exact lookupA_of_mem_nodupKeys hsubwf.1 hmem
  · have hlen : base.length ≤ p.length := by
      have := congrArg List.length hbase
      rw [List.length_take] at this
      omega
    rw [List.take_append_of_le_length hlen]
    exact hbase

/-- Soundness of one `next` step: under a coherent stack, the step preserves
coherence (and the `metadata` and `max_version` fields), and anything yielded
as `Ok` is a file within the version bound whose path, prefixed with the
listing directory, resolves in the tree. -/
theorem next_sound {tree : FsTree} (hwf : tree.wf = true) :
    ∀ (fuel : Nat) (l l₂ : FileLister) (r : Option (Except Err (List String × FileMetadata))),
      stackOK tree l → FileLister.next fuel l = (r, l₂) →
      stackOK tree l₂ ∧ l₂.metadata = l.metadata ∧ l₂.max_version = l.max_version ∧
      ∀ p m, r = some (.ok (p, m)) →
        m.version ≤ l.max_version ∧ lookupTree tree (l.metadata ++ p) = some (.file m) := by
  intro fuel
  induction fuel with
  | zero =>
    intro l l₂ r hok h
    rw [FileLister.next, Prod.mk.injEq] at h
    obtain ⟨h1, h2⟩ := h
    subst h2
    refine ⟨hok, rfl, rfl, ?_⟩
    intro p m hr
    rw [← h1] at hr
    exact absurd hr (by simp)
  | succ fuel ih =>
    intro l l₂ r hok h
    obtain ⟨stack, base, maxv⟩ := l
    cases stack with
    | nil =>
      simp only [FileLister.next, Prod.mk.injEq] at h
      obtain ⟨h1, h2⟩ := h
      subst h2
      refine ⟨hok, rfl, rfl, ?_⟩
      intro p m hr
      rw [← h1] at hr
      exact absurd hr (by simp)
    | cons current rest =>
      cases current with
      | nil =>
        simp only [FileLister.next] at h
        have hok2 : stackOK tree ⟨rest, base, maxv⟩ := by
          intro f hf e he
          exact hok f (List.mem_cons_of_mem _ hf) e he
        exact ih ⟨rest, base, maxv⟩ l₂ r hok2 h
      | cons e₀ remaining =>
        obtain ⟨p, t⟩ := e₀
        have hcur : entryOK tree base (p, t) :=
          hok _ (List.mem_cons_self _ _) _ (List.mem_cons_self _ _)
        have hrem : ∀ x ∈ remaining, entryOK tree base x := fun x hx =>
          hok _ (List.mem_cons_self _ _) _ (List.mem_cons_of_mem _ hx)
        have hrest : ∀ f ∈ rest, ∀ x ∈ f, entryOK tree base x := fun f hf x hx =>
          hok f (List.mem_cons_of_mem _ hf) x hx
        have hok3 : stackOK tree ⟨remaining :: rest, base, maxv⟩ := by
          intro f hf x hx
          rcases List.mem_cons.mp hf with rfl | hf
          · exact hrem x hx
          · exact hrest _ hf x hx
        cases t with
        | dir es =>
          simp only [FileLister.next] at h
          have hok2 : stackOK tree ⟨es.toFrame p :: remaining :: rest, base, maxv⟩ := by
            intro f hf x hx
            rcases List.mem_cons.mp hf with rfl | hf
            · exact children_entryOK hwf hcur.1 hcur.2 x hx
            · exact hok3 _ hf x hx
          exact ih ⟨es.toFrame p :: remaining :: rest, base, maxv⟩ l₂ r hok2 h
        | file m =>
          simp only [FileLister.next] at h
          by_cases hv : m.version ≤ maxv
          · rw [if_pos hv, Prod.mk.injEq] at h
            obtain ⟨h1, h2⟩ := h
            subst h2
            refine ⟨hok3, rfl, rfl, ?_⟩
            intro p₂ m₂ hr
            rw [← h1] at hr
            simp only [Option.some.injEq, Except.ok.injEq, Prod.mk.injEq] at hr
            obtain ⟨hp2, hm2⟩ := hr
            subst hp2
            subst hm2
            have hfull : base ++ List.drop base.length p = p := by
              conv_rhs => rw [← List.take_append_drop base.length p]
              rw [hcur.2]
            exact ⟨hv, by rw [hfull]; exact hcur.1⟩
          · rw [if_neg hv] at h
            exact ih ⟨remaining :: rest, base, maxv⟩ l₂ r hok3 h
        | other =>
          simp only [FileLister.next] at h
          exact ih ⟨remaining :: rest, base, maxv⟩ l₂ r hok3 h

/-- Soundness of the whole yielded sequence. -/
theorem collect_sound {tree : FsTree} (hwf : tree.wf = true) :
    ∀ (fuel : Nat) (l : FileLister), stackOK tree l →
      ∀ p m, Except.ok (p, m) ∈ collectList fuel l →
        m.version ≤ l.max_version ∧ lookupTree tree (l.metadata ++ p) = some (.file m) := by
  intro fuel
  induction fuel with
  | zero =>
    intro l _ p m hmem
    simp [collectList] at hmem
  | succ fuel ih =>
    intro l hok p m hmem
    rw [collectList] at hmem
    cases hn : FileLister.next (fuel + 1) l with
    | mk r l₂ =>
      rw [hn] at hmem
      obtain ⟨hok2, hmeta, hmax, hyield⟩ := next_sound hwf (fuel + 1) l l₂ r hok hn
      cases r with
      | none => simp at hmem
      | some x =>
        rcases List.mem_cons.mp hmem with hx | hx
        · exact hyield p m (by rw [← hx])
        · have := ih l₂ hok2 p m hx
          rw [hmeta, hmax] at this
          exact this

theorem list_stackOK {tree : FsTree} (hwf : tree.wf = true)
    {pre : List String} {maxv : Int} {l₀ : FileLister}
    (hl : LocalStorage.list tree pre maxv = .ok l₀) :
    stackOK tree l₀ ∧ l₀.metadata = pre ∧ l₀.max_version = maxv := by
  rw [LocalStorage.list] at hl
  cases ht : lookupTree tree pre with
  | none => simp [ht] at hl
  | some t =>
    cases t with
    | file m => simp [ht] at hl
    | other => simp [ht] at hl
    | dir es =>
      simp only [ht, Except.ok.injEq] at hl
      subst hl
      refine ⟨?_, rfl, rfl⟩
      intro frame hf e he
      rcases List.mem_cons.mp hf with rfl | hf
      · exact children_entryOK hwf ht (by rw [List.take_length]) e he
      · simp at hf

/-- Claim C5, counterexample.  Listing the tree `a/b` (a single file under
directory `a`) with prefix `a` yields the path `["b"]` — relative to the
listing directory `<metadata_root>/a`, not to the metadata root: it differs
from the root-relative `["a", "b"]` and does not resolve against the root. -/
theorem c5_path_relative_counterexample :
    (LocalStorage.list
        (.dir (.cons "a" (.dir (.cons "b" (.file ⟨1, [7], .Gzip, 5⟩) .nil)) .nil))
        ["a"] 10).map (fun l => collectList 3 l) =
      .ok [.ok (["b"], ⟨1, [7], .Gzip, 5⟩)]
    ∧ (["b"] : List String) ≠ ["a", "b"]
    ∧ (lookupTree
        (.dir (.cons "a" (.dir (.cons "b" (.file ⟨1, [7], .Gzip, 5⟩) .nil)) .nil))
        ["b"]).isSome = false := by
  refine ⟨by decide, by decide, by decide⟩

/-- Claim C5 as amended (proved).  Every `(path, metadata)` item yielded by the
iterator returned from `list(prefix, max_version)` satisfies
`metadata.version ≤ max_version`, and its path is relative to the listing
directory `<metadata_root>/<prefix>`: prefixing it with `prefix` resolves to
that file in the metadata tree (for trees whose directories hold no duplicate
names). -/
theorem c5_list_amended {tree : FsTree} {pre : List String} {maxv : Int}
    {l₀ : FileLister} (hwf : FsTree.wf tree = true)
    (hl : LocalStorage.list tree pre maxv = .ok l₀)
    (fuel : Nat) (p : List String) (m : FileMetadata)
    (hmem : Except.ok (p, m) ∈ collectList fuel l₀) :
    m.version ≤ maxv ∧ lookupTree tree (pre ++ p) = some (.file m) := by
  obtain ⟨hok, hmeta, hmax⟩ := list_stackOK hwf hl
  have := collect_sound hwf fuel l₀ hok p m hmem
  rw [hmeta, hmax] at this
  exact this

/-- Witness for C5 on the concrete tree of the counterexample: the yielded
item `(["b"], m)` is within the bound and resolves at `a/b`. -/
theorem c5_list_amended_witness :
    (1 : Int) ≤ 10
    ∧ lookupTree
        (.dir (.cons "a" (.dir (.cons "b" (.file ⟨1, [7], .Gzip, 5⟩) .nil)) .nil))
        (["a"] ++ ["b"]) = some (.file ⟨1, [7], .Gzip, 5⟩) :=
  @c5_list_amended
    (.dir (.cons "a" (.dir (.cons "b" (.file ⟨1, [7], .Gzip, 5⟩) .nil)) .nil))
    ["a"] 10
    ⟨[FsEntries.toFrame ["a"] (.cons "b" (.file ⟨1, [7], .Gzip, 5⟩) .nil)], ["a"], 10⟩
    (by decide) rfl 3 ["b"] ⟨1, [7], .Gzip, 5⟩ (by decide)

end Filetracker
